import Mathlib

/-!
Verification of the RC-Plane-Tracker telemetry pipeline.

The transmitter (`plane_transmitter.ino`) and ground receiver
(`ground_receiver.ino`) are embedded as pure functions over `List Char`
lines.  Arduino `float` values appear in the claims only through their
rendered decimal text, so they are modelled as fixed-point scaled
integers (`String(x, n)` becomes an exact rendering of `v * 10^(-n)`).
The flight-state machine and the packet validator live in
`flight_tracker/server.py` / `flight_detector.py`, which are not part of
the available sources; they are modelled from the specification and
marked as such in their doc comments.
-/

namespace RC

/-- Decimal digit character: 0 ↦ '0', …, 9 ↦ '9' (identity of `utoa` per digit). -/
def digitChar (n : Nat) : Char :=
  match n with
  | 0 => '0' | 1 => '1' | 2 => '2' | 3 => '3' | 4 => '4'
  | 5 => '5' | 6 => '6' | 7 => '7' | 8 => '8' | _ => '9'

/-- Fuel-driven helper for `natDigits` (structural recursion on the fuel so
that the definition evaluates inside the kernel; the fuel is always
sufficient in `natDigits`). -/
def natDigitsFuel : Nat → Nat → List Char
  | 0, n => [digitChar n]
  | fuel + 1, n =>
    if n < 10 then [digitChar n]
    else natDigitsFuel fuel (n / 10) ++ [digitChar (n % 10)]

/-- Decimal rendering of a natural number, most significant digit first,
as produced by Arduino `String(unsigned)` / `utoa` (no padding, "0" for zero). -/
def natDigits (n : Nat) : List Char :=
  natDigitsFuel n n

theorem natDigitsFuel_invariant :
    ∀ f f' n, n ≤ f → n ≤ f' → natDigitsFuel f n = natDigitsFuel f' n := by
  intro f
  induction f with
  | zero =>
    intro f' n hf hf'
    have hn : n = 0 := by omega
    subst hn
    cases f' with
    | zero => rfl
    | succ g => simp [natDigitsFuel]
  | succ g ih =>
    intro f' n hf hf'
    cases f' with
    | zero =>
      have hn : n = 0 := by omega
      subst hn
      simp [natDigitsFuel]
    | succ g' =>
      simp only [natDigitsFuel]
      split
      · rfl
      · next h =>
        rw [ih g' (n / 10) (by omega) (by omega)]

/-- The recursive unfolding of `natDigits`. -/
theorem natDigits_unfold (n : Nat) :
    natDigits n = if n < 10 then [digitChar n]
      else natDigits (n / 10) ++ [digitChar (n % 10)] := by
  unfold natDigits
  cases n with
  | zero => simp [natDigitsFuel]
  | succ m =>
    simp only [natDigitsFuel]
    split
    · rfl
    · next h =>
      rw [natDigitsFuel_invariant m ((m + 1) / 10) ((m + 1) / 10) (by omega) (by omega)]

/-- Lowercase hexadecimal digit character, as produced by Arduino `utoa` base 16. -/
def hexDigitChar (n : Nat) : Char :=
  match n with
  | 0 => '0' | 1 => '1' | 2 => '2' | 3 => '3' | 4 => '4'
  | 5 => '5' | 6 => '6' | 7 => '7' | 8 => '8' | 9 => '9'
  | 10 => 'a' | 11 => 'b' | 12 => 'c' | 13 => 'd' | 14 => 'e' | _ => 'f'

/-- Fuel-driven helper for `natHexDigits` (structural recursion on the fuel so
that the definition evaluates inside the kernel). -/
def natHexDigitsFuel : Nat → Nat → List Char
  | 0, n => [hexDigitChar n]
  | fuel + 1, n =>
    if n < 16 then [hexDigitChar n]
    else natHexDigitsFuel fuel (n / 16) ++ [hexDigitChar (n % 16)]

/-- Lowercase hexadecimal rendering of a natural number, most significant digit
first, as produced by Arduino `String(value, HEX)`: minimal width, no zero
padding ("0" for zero, "5" for five, "5e" for 94). -/
def natHexDigits (n : Nat) : List Char :=
  natHexDigitsFuel n n

theorem natHexDigitsFuel_invariant :
    ∀ f f' n, n ≤ f → n ≤ f' → natHexDigitsFuel f n = natHexDigitsFuel f' n := by
  intro f
  induction f with
  | zero =>
    intro f' n hf hf'
    have hn : n = 0 := by omega
    subst hn
    cases f' with
    | zero => rfl
    | succ g => simp [natHexDigitsFuel]
  | succ g ih =>
    intro f' n hf hf'
    cases f' with
    | zero =>
      have hn : n = 0 := by omega
      subst hn
      simp [natHexDigitsFuel]
    | succ g' =>
      simp only [natHexDigitsFuel]
      split
      · rfl
      · next h =>
        rw [ih g' (n / 16) (by omega) (by omega)]

/-- The recursive unfolding of `natHexDigits`. -/
theorem natHexDigits_unfold (n : Nat) :
    natHexDigits n = if n < 16 then [hexDigitChar n]
      else natHexDigits (n / 16) ++ [hexDigitChar (n % 16)] := by
  unfold natHexDigits
  cases n with
  | zero => simp [natHexDigitsFuel]
  | succ m =>
    simp only [natHexDigitsFuel]
    split
    · rfl
    · next h =>
      rw [natHexDigitsFuel_invariant m ((m + 1) / 16) ((m + 1) / 16) (by omega) (by omega)]

/-- Decimal rendering of an `int`, as produced by Arduino `String(int)` /
`Print::print(int)`: optional leading minus sign, then the digits. -/
def intDigits (i : Int) : List Char :=
  if i < 0 then '-' :: natDigits i.natAbs else natDigits i.natAbs

/-- Left-pad a digit string with zeros up to width `w`. -/
def padZeros (w : Nat) (ds : List Char) : List Char :=
  List.replicate (w - ds.length) '0' ++ ds

/-- Rendering of an Arduino `float` with `dp` decimal places, as produced by
`String(float, dp)` / `Print::print(double, dp)`.  The float is modelled as
the fixed-point integer `v` with value `v * 10^(-dp)` (exact in every use in
this development), so the rendering is: optional sign, integer part, '.',
exactly `dp` fraction digits. -/
def fixedDigits (v : Int) (dp : Nat) : List Char :=
  (if v < 0 then ['-'] else []) ++
    natDigits (v.natAbs / 10 ^ dp) ++ '.' :: padZeros dp (natDigits (v.natAbs % 10 ^ dp))

/-- Value of one hexadecimal digit character, case-insensitive. -/
def hexDigitVal (c : Char) : Option Nat :=
  if '0' ≤ c ∧ c ≤ '9' then some (c.toNat - 48)
  else if 'a' ≤ c ∧ c ≤ 'f' then some (c.toNat - 87)
  else if 'A' ≤ c ∧ c ≤ 'F' then some (c.toNat - 55)
  else none

/-- Accumulating hexadecimal string parser (case-insensitive). -/
def hexValAux (acc : Nat) : List Char → Option Nat
  | [] => some acc
  | c :: r =>
    match hexDigitVal c with
    | some d => hexValAux (16 * acc + d) r
    | none => none

/-- Case-insensitive hexadecimal value of a nonempty digit string. -/
def hexVal (l : List Char) : Option Nat :=
  match l with
  | [] => none
  | _ => hexValAux 0 l

/-- Value of one decimal digit character. -/
def digitVal (c : Char) : Option Nat :=
  if '0' ≤ c ∧ c ≤ '9' then some (c.toNat - 48) else none

/-- Accumulating decimal string parser. -/
def decValAux (acc : Nat) : List Char → Option Nat
  | [] => some acc
  | c :: r =>
    match digitVal c with
    | some d => decValAux (10 * acc + d) r
    | none => none

/-- Decimal value of a nonempty digit string. -/
def decVal (l : List Char) : Option Nat :=
  match l with
  | [] => none
  | _ => decValAux 0 l

/-- XOR fold of the bytes of a character list, as in the transmitter's
`for (int i = 1; ...) checksum ^= packet[i]` loop (initial value 0,
left-to-right). -/
def xorFold (l : List Char) : Nat :=
  l.foldl (fun a c => a ^^^ c.toNat) 0

/-! ## Line dissection (the spec's reference view of a wire line) -/

/-- The bytes of a line strictly between the leading `$` and the first `*`. -/
def payloadOf (l : List Char) : List Char :=
  (l.drop 1).takeWhile (· != '*')

/-- The bytes of a line strictly after the first `*`. -/
def afterStarOf (l : List Char) : List Char :=
  ((l.drop 1).dropWhile (· != '*')).drop 1

/-- The checksum field: the bytes after the first `*` up to the optional `|`. -/
def checkFieldOf (l : List Char) : List Char :=
  (afterStarOf l).takeWhile (· != '|')

/-- The link-quality suffix: the bytes strictly after the first `|`. -/
def suffixOf (l : List Char) : List Char :=
  (l.dropWhile (· != '|')).drop 1

/-- The last comma-separated field of the payload (the sequence number field). -/
def seqFieldOf (l : List Char) : List Char :=
  ((payloadOf l).reverse.takeWhile (· != ',')).reverse

/-- The rssi part of the link-quality suffix (before its comma). -/
def rssiFieldOf (l : List Char) : List Char :=
  (suffixOf l).takeWhile (· != ',')

/-- The snr part of the link-quality suffix (after its comma). -/
def snrFieldOf (l : List Char) : List Char :=
  ((suffixOf l).dropWhile (· != ',')).drop 1

/-- Number of characters after the last `.` of a rendered decimal
(its number of decimal places). -/
def decimalsAfterDot (l : List Char) : Nat :=
  (l.reverse.takeWhile (· != '.')).length

/-- The literal control sentinel line `$SIGNAL_LOST`. -/
def sentinelLine : List Char :=
  ['$', 'S', 'I', 'G', 'N', 'A', 'L', '_', 'L', 'O', 'S', 'T']

/-! ## Transmitter (`plane_transmitter.ino`) -/

/-- The transmitter's data registers just before `transmitData()` runs
(`latitude`, `longitude`, `altitude`, `speed_mph`, `satellites`, `packetNum`).
The four float registers are modelled as fixed-point integers scaled by the
number of decimal places used in their rendering: `latitude`/`longitude` in
millionths of a degree (printed with 6 decimals), `altitude` in tenths of a
meter and `speed_mph` in tenths of a mph (printed with 1 decimal). -/
structure TxState where
  latitude : Int
  longitude : Int
  altitude : Int
  speed_mph : Int
  satellites : Int
  packetNum : Int
deriving DecidableEq

/-- The comma-separated rendered fields of a packet:
`String(latitude,6) + "," + String(longitude,6) + "," + String(altitude,1) +
"," + String(speed_mph,1) + "," + String(satellites) + "," + String(packetNum)`. -/
def txFields (s : TxState) : List Char :=
  fixedDigits s.latitude 6 ++ ',' ::
    (fixedDigits s.longitude 6 ++ ',' ::
      (fixedDigits s.altitude 1 ++ ',' ::
        (fixedDigits s.speed_mph 1 ++ ',' ::
          (intDigits s.satellites ++ ',' :: intDigits s.packetNum))))

/-- The packet text built by `transmitData()` before the checksum is appended:
`"$FLT," + <fields>`.  `txBody` is the part after the `$`. -/
def txBody (s : TxState) : List Char :=
  'F' :: 'L' :: 'T' :: ',' :: txFields s

/-- The packet before the checksum is appended (leading `$` included). -/
def txPayload (s : TxState) : List Char :=
  '$' :: txBody s

/-- `transmitData()`'s checksum: `byte checksum = 0; for (int i = 1;
i < packet.length(); i++) checksum ^= packet[i];` — the XOR of every byte of
the packet text except the leading `$` (the `*` is appended afterwards). -/
def txChecksum (s : TxState) : Nat :=
  xorFold (txBody s)

/-- The complete transmitted line: `packet += "*"; packet += String(checksum, HEX)`. -/
def txLine (s : TxState) : List Char :=
  txPayload s ++ '*' :: natHexDigits (txChecksum s)

/-- One GPS reading (the values the `loop()` copies into the data registers
before transmitting), in the same fixed-point scaling as `TxState`. -/
structure GpsData where
  latitude : Int
  longitude : Int
  altitude : Int
  speed_mph : Int
  satellites : Int
deriving DecidableEq

/-- Two's-complement wrap of an integer into `[-2^31, 2^31)`: the value a
32-bit `int` holds after an increment, as on the 32-bit ESP32 target
(`packetNum` is declared `int`, so it overflows from `2^31 - 1` to
`-2^31`). -/
def wrap32 (i : Int) : Int :=
  (i + 2 ^ 31) % 2 ^ 32 - 2 ^ 31

/-- The transmitter state at the `n`-th call of `transmitData()` (0-based),
fed by an arbitrary stream `g` of GPS readings: `packetNum` starts at 0 and
`packetNum++` runs once per transmission, wrapping as a 32-bit `int`. -/
def txStateAt (g : Nat → GpsData) : Nat → TxState
  | 0 =>
    { latitude := (g 0).latitude, longitude := (g 0).longitude,
      altitude := (g 0).altitude, speed_mph := (g 0).speed_mph,
      satellites := (g 0).satellites, packetNum := 0 }
  | n + 1 =>
    { latitude := (g (n + 1)).latitude, longitude := (g (n + 1)).longitude,
      altitude := (g (n + 1)).altitude, speed_mph := (g (n + 1)).speed_mph,
      satellites := (g (n + 1)).satellites,
      packetNum := wrap32 ((txStateAt g n).packetNum + 1) }

/-! ## Ground receiver (`ground_receiver.ino`) -/

/-- The line the receiver forwards over USB serial for a received packet:
`Serial.print(packet); Serial.print("|"); Serial.print(rssi);
Serial.print(","); Serial.println(snr);`.  `rssi` is an `int`; `snr` is a
`float` printed by `Print::print(double)` with its default of 2 decimal
places, modelled as a fixed-point integer in hundredths. -/
def forwardLine (packet : List Char) (rssi : Int) (snr : Int) : List Char :=
  packet ++ '|' :: (intDigits rssi ++ ',' :: fixedDigits snr 2)

/-- The receiver's mutable state: `packetsReceived` and `lastPacketTime`. -/
structure RxState where
  packetsReceived : Int
  lastPacketTime : Nat
deriving DecidableEq

/-- One `loop()` iteration's environment: the current `millis()` value and
the received packet (bytes, rssi, snr in hundredths), if any. -/
structure RxInput where
  now : Nat
  packet : Option (List Char × Int × Int)

/-- `millis() - lastPacketTime` in 32-bit unsigned arithmetic. -/
def elapsed (now last : Nat) : Nat :=
  (now + 2 ^ 32 - last % 2 ^ 32) % 2 ^ 32

/-- One iteration of the receiver's `loop()`: forward any received packet
(updating `packetsReceived` and `lastPacketTime`), then the signal-loss check
`if (lastPacketTime > 0 && millis() - lastPacketTime > 5000)
{ Serial.println("$SIGNAL_LOST"); lastPacketTime = 0; }`.
Returns the successor state and the lines printed this iteration. -/
def rxStep (s : RxState) (i : RxInput) : RxState × List (List Char) :=
  let s1 : RxState :=
    match i.packet with
    | some _ => { packetsReceived := s.packetsReceived + 1, lastPacketTime := i.now }
    | none => s
  let out1 : List (List Char) :=
    match i.packet with
    | some (p, r, v) => [forwardLine p r v]
    | none => []
  if 0 < s1.lastPacketTime ∧ 5000 < elapsed i.now s1.lastPacketTime then
    ({ s1 with lastPacketTime := 0 }, out1 ++ [sentinelLine])
  else
    (s1, out1)

/-- The receiver state at boot (`packetsReceived = 0`, `lastPacketTime = 0`). -/
def rxInit : RxState :=
  { packetsReceived := 0, lastPacketTime := 0 }

/-- Whether one receiver iteration prints the `$SIGNAL_LOST` sentinel. -/
def emitsSentinel (s : RxState) (i : RxInput) : Bool :=
  decide (sentinelLine ∈ (rxStep s i).2)

/-- Per-iteration observation trace of a receiver run: for each input,
whether a packet arrived and whether the sentinel was printed. -/
def rxFlags (s : RxState) : List RxInput → List (Bool × Bool)
  | [] => []
  | i :: is => (i.packet.isSome, emitsSentinel s i) :: rxFlags (rxStep s i).1 is

/-- The signal-loss protocol on an observation trace: a sentinel may be
printed only when a packet has arrived since the previous sentinel (`armed`),
and printing it disarms until the next packet. -/
def goodFlags : Bool → List (Bool × Bool) → Bool
  | _, [] => true
  | armed, (pkt, sl) :: rest =>
    if sl then (armed || pkt) && goodFlags false rest
    else goodFlags (armed || pkt) rest

/-! ## PacketCodec (modelled from the spec) -/

/-- Character admissible inside a numeric payload field: a decimal digit,
a minus sign or a decimal point. -/
def numericChar (c : Char) : Bool :=
  (decide ('0' ≤ c) && decide (c ≤ '9')) || c == '-' || c == '.'

/-- Modelled from the spec: the structural grammar check of §4.1 / §6 on the
payload between `$` and `*` — the literal tag `FLT` then six comma-separated
numeric fields (`flight_tracker/server.py`, which implements PacketCodec, is
not among the available sources).  The model checks the tag, the field
separator count and the admissible character set; finer per-field shape is
the numeric-parse step (`parseDec`). -/
def payloadOk (p : List Char) : Bool :=
  match p with
  | f :: l :: t :: comma :: body =>
    f == 'F' && l == 'L' && t == 'T' && comma == ',' &&
      body.all (fun c => numericChar c || c == ',') && body.count ',' == 5
  | _ => false

/-- Modelled from the spec: the link-quality suffix check — `rssi,snr` with
numeric fields and exactly one comma. -/
def suffixOk (sf : List Char) : Bool :=
  sf.all (fun c => numericChar c || c == ',') && sf.count ',' == 1

/-- Modelled from the spec: the checksum-recompute step — the checksum field
must parse as case-insensitive hex and equal the XOR fold of the payload. -/
def checksumOk (payload checkF : List Char) : Bool :=
  match hexVal checkF with
  | some v => v == xorFold payload
  | none => false

/-- Modelled from the spec: §4.1 validation of one non-sentinel line —
(1) structural match (leading `$`, payload grammar up to the first `*`, the
`*` present, a checksum field up to the optional `|`, an optional `|rssi,snr`
suffix), (2) checksum recompute: the case-insensitive hex value after `*`
must equal the XOR fold of the bytes strictly between `$` and `*`. -/
def validatesB (l : List Char) : Bool :=
  match l with
  | [] => false
  | c :: rest =>
    let payload := rest.takeWhile (· != '*')
    let star := rest.dropWhile (· != '*')
    let tail := star.drop 1
    let checkF := tail.takeWhile (· != '|')
    let sfx := tail.dropWhile (· != '|')
    c == '$' && !star.isEmpty && payloadOk payload && checksumOk payload checkF &&
      (sfx.isEmpty || suffixOk (sfx.drop 1))

/-- Split a character list at commas into fields. -/
def splitFields : List Char → List (List Char)
  | [] => [[]]
  | c :: r =>
    if c = ',' then [] :: splitFields r
    else
      match splitFields r with
      | f :: fs => (c :: f) :: fs
      | [] => [[c]]

/-- Parse an unsigned decimal numeral with an optional fraction part into an
exact rational. -/
def parseDecNN (l : List Char) : Option ℚ :=
  let ip := l.takeWhile (· != '.')
  match l.dropWhile (· != '.') with
  | [] => (decVal ip).map (fun a => (a : ℚ))
  | _ :: fr =>
    match decVal ip, decVal fr with
    | some a, some b => some ((a : ℚ) + (b : ℚ) / (10 : ℚ) ^ fr.length)
    | _, _ => none

/-- Parse a signed decimal numeral into an exact rational. -/
def parseDec (l : List Char) : Option ℚ :=
  match l with
  | '-' :: r => (parseDecNN r).map (fun q => -q)
  | _ => parseDecNN l

/-- Result of decoding one transport line (spec §4.1): a telemetry sample
(here reduced to the two fields the state machine consumes), the
signal-lost control event, or a decode failure. -/
inductive Decoded where
  | sample (speed : ℚ) (altitude : ℚ)
  | control
  | failure
deriving DecidableEq

/-- Modelled from the spec: §4.1 PacketCodec — the `$SIGNAL_LOST` line is
recognized verbatim (never entering the integrity check), any other line is
validated structurally and by checksum and its numeric fields parsed
(altitude is field 3, speed field 4 of the payload). -/
def decodeLine (l : List Char) : Decoded :=
  if l = sentinelLine then .control
  else if validatesB l then
    let fields := splitFields (payloadOf l)
    match fields[3]? , fields[4]? with
    | some af, some sf =>
      match parseDec af, parseDec sf with
      | some al, some sp => .sample sp al
      | _, _ => .failure
    | _, _ => .failure
  else .failure

/-! ## FlightStateMachine (modelled from the spec) -/

/-- Modelled from the spec: §4.2 states — `Standby`, `PendingStart` (with the
timestamp of the first crossing), `InFlight`, `PendingEnd` (with the
timestamp of the first drop).  The pending timestamps are the
`pending_since` timer state §9 calls for. -/
inductive Mode where
  | Standby
  | PendingStart (since : Nat)
  | InFlight
  | PendingEnd (since : Nat)
deriving DecidableEq

/-- Modelled from the spec: §3 Flight — start time, ordered samples
(timestamp, speed, altitude), running peak speed and peak altitude, and the
end time once finalized. -/
structure Flight where
  startTime : Nat
  samples : List (Nat × ℚ × ℚ)
  peakSpeed : ℚ
  peakAltitude : ℚ
  endTime : Option Nat
deriving DecidableEq

/-- Modelled from the spec: §4.2 configuration. -/
structure FsmConfig where
  startThreshold : ℚ
  startDuration : Nat
  endThreshold : ℚ
  endDuration : Nat

/-- The spec's configuration values: 5 mph / 5 s / 2 mph / 30 s. -/
def specConfig : FsmConfig :=
  { startThreshold := 5, startDuration := 5, endThreshold := 2, endDuration := 30 }

/-- Modelled from the spec: the state machine's state — its mode and the open
Flight, if any. -/
structure FsmState where
  mode : Mode
  openFlight : Option Flight
deriving DecidableEq

/-- The initial state: `Standby`, no open flight. -/
def fsmInit : FsmState :=
  { mode := .Standby, openFlight := none }

/-- Lifecycle and link events the state machine publishes (spec §4.4):
`FlightStarted` carries the recorded start time, `FlightEnded` the recorded
end time. -/
inductive FsmEvent where
  | FlightStarted (startTime : Nat)
  | FlightEnded (endTime : Nat)
  | SignalLostEvt
deriving DecidableEq

/-- Append a sample to an open flight and update the running peaks
(spec §4.2: "append every incoming Sample to the open Flight, update peak
speed/altitude as running maxima"). -/
def appendToFlight (f : Flight) (t : Nat) (sp al : ℚ) : Flight :=
  { f with samples := f.samples ++ [(t, sp, al)],
           peakSpeed := max f.peakSpeed sp,
           peakAltitude := max f.peakAltitude al }

/-- Modelled from the spec: §4.2 transition rules, evaluated per incoming
sample on its speed and arrival timestamp (`flight_detector.py` is not among
the available sources).
* `Standby → PendingStart` when speed ≥ start_threshold (crossing recorded);
* `PendingStart → Standby` when speed drops below start_threshold (full reset);
* `PendingStart → InFlight` when the speed has stayed ≥ start_threshold and
  ≥ start_duration has elapsed since the crossing: a Flight is created with
  the crossing timestamp as start time, peaks seeded from the current sample,
  and `FlightStarted` is emitted;
* `InFlight → PendingEnd` when speed ≤ end_threshold (drop recorded);
* `PendingEnd → InFlight` when speed rises back above end_threshold;
* `PendingEnd → Standby` when ≥ end_duration has elapsed since the drop: the
  Flight is finalized with the drop timestamp as end time and `FlightEnded`
  is emitted.
While `InFlight` or `PendingEnd` every incoming sample is appended to the
open Flight with peaks updated. -/
def fsmStep (c : FsmConfig) (s : FsmState) (t : Nat) (sp al : ℚ) :
    FsmState × List FsmEvent :=
  match s.mode with
  | .Standby =>
    if c.startThreshold ≤ sp then
      ({ s with mode := .PendingStart t }, [])
    else (s, [])
  | .PendingStart t0 =>
    if sp < c.startThreshold then
      ({ s with mode := .Standby }, [])
    else if c.startDuration ≤ t - t0 then
      ({ mode := .InFlight,
         openFlight := some { startTime := t0, samples := [(t, sp, al)],
                              peakSpeed := sp, peakAltitude := al,
                              endTime := none } },
       [.FlightStarted t0])
    else (s, [])
  | .InFlight =>
    let fl := s.openFlight.map (fun f => appendToFlight f t sp al)
    if sp ≤ c.endThreshold then
      ({ mode := .PendingEnd t, openFlight := fl }, [])
    else ({ mode := .InFlight, openFlight := fl }, [])
  | .PendingEnd t1 =>
    if c.endThreshold < sp then
      ({ mode := .InFlight, openFlight := s.openFlight.map (fun f => appendToFlight f t sp al) }, [])
    else if c.endDuration ≤ t - t1 then
      ({ mode := .Standby, openFlight := none }, [.FlightEnded t1])
    else
      ({ mode := .PendingEnd t1, openFlight := s.openFlight.map (fun f => appendToFlight f t sp al) }, [])

/-- Modelled from the spec: a `SignalLost` control event is forwarded to
subscribers but never itself changes flight state (§4.2). -/
def fsmControl (s : FsmState) : FsmState × List FsmEvent :=
  (s, [.SignalLostEvt])

/-- Modelled from the spec: the ingestion pipeline for one transport line —
decode, then dispatch to the state machine (samples step it, the sentinel is
forwarded as a control event, failures are dropped with no transition). -/
def processLine (fs : FsmState) (t : Nat) (l : List Char) : FsmState × List FsmEvent :=
  match decodeLine l with
  | .control => fsmControl fs
  | .sample sp al => fsmStep specConfig fs t sp al
  | .failure => (fs, [])

/-- Run the state machine over a list of samples `(timestamp, speed, altitude)`,
returning the final state and the concatenated events. -/
def fsmRun (c : FsmConfig) (s : FsmState) : List (Nat × ℚ × ℚ) → FsmState × List FsmEvent
  | [] => (s, [])
  | (t, sp, al) :: rest =>
    let st := fsmStep c s t sp al
    let rec' := fsmRun c st.1 rest
    (rec'.1, st.2 ++ rec'.2)

/-- Run the state machine over a list of samples, returning the events emitted
by each step, in order. -/
def fsmRunSteps (c : FsmConfig) (s : FsmState) : List (Nat × ℚ × ℚ) → List (List FsmEvent)
  | [] => []
  | (t, sp, al) :: rest =>
    (fsmStep c s t sp al).2 :: fsmRunSteps c (fsmStep c s t sp al).1 rest

/-- Whether a state has an open session (mode `InFlight` or `PendingEnd`). -/
def openB (s : FsmState) : Bool :=
  match s.mode with
  | .InFlight => true
  | .PendingEnd _ => true
  | _ => false

/-- Scanner for the claim "never two consecutive `FlightStarted` without an
intervening `FlightEnded`": the flag records whether a `FlightStarted` has
been seen with no `FlightEnded` after it. -/
def noDoubleStart : Bool → List FsmEvent → Bool
  | _, [] => true
  | b, .FlightStarted _ :: r => !b && noDoubleStart true r
  | _, .FlightEnded _ :: r => noDoubleStart false r
  | b, .SignalLostEvt :: r => noDoubleStart b r

/-! ## Dashboard handlers (`flight_tracker/static/js/map.js`) -/

/-- The dashboard's status-display state touched by the socket handlers:
the connection status text and dot class, and the flight badge written by
`updateFlightStatus`. -/
structure DashboardState where
  statusText : String
  statusDotClass : String
  flightBadgeText : String
  flightBadgeClass : String
deriving DecidableEq

/-- The `socket.on('signal_lost')` handler: sets the status text to
"Signal Lost!" and the status dot class to warning — nothing else. -/
def onSignalLost (d : DashboardState) : DashboardState :=
  { d with statusText := "Signal Lost!", statusDotClass := "status-dot warning" }

/-! ## Character-set and roundtrip lemmas for the renderers -/

/-- Lowercase hexadecimal digit character test. -/
def lowerHexChar (c : Char) : Bool :=
  (decide ('0' ≤ c) && decide (c ≤ '9')) || (decide ('a' ≤ c) && decide (c ≤ 'f'))

theorem digitChar_range (n : Nat) :
    48 ≤ (digitChar n).toNat ∧ (digitChar n).toNat ≤ 57 := by
  unfold digitChar
  split <;> decide

theorem natDigits_range (n : Nat) :
    ∀ c ∈ natDigits n, 48 ≤ c.toNat ∧ c.toNat ≤ 57 := by
  induction n using Nat.strong_induction_on with
  | _ n ih =>
    rw [natDigits_unfold]
    split
    · intro c hc
      rw [List.mem_singleton] at hc
      subst hc
      exact digitChar_range n
    · intro c hc
      rw [List.mem_append, List.mem_singleton] at hc
      rcases hc with hc | hc
      · exact ih (n / 10) (Nat.div_lt_self (by omega) (by omega)) c hc
      · subst hc
        exact digitChar_range (n % 10)

theorem natDigits_ne_nil (n : Nat) : natDigits n ≠ [] := by
  rw [natDigits_unfold]
  split
  · simp
  · simp

theorem natDigits_length_le (k : Nat) :
    ∀ n, n < 10 ^ (k + 1) → (natDigits n).length ≤ k + 1 := by
  induction k with
  | zero =>
    intro n hn
    rw [natDigits_unfold]
    split
    · simp
    · omega
  | succ k ih =>
    intro n hn
    rw [natDigits_unfold]
    split
    · simp
    · rw [List.length_append]
      have hdiv : n / 10 < 10 ^ (k + 1) := by
        rw [Nat.div_lt_iff_lt_mul (by omega)]
        calc n < 10 ^ (k + 1 + 1) := hn
        _ = 10 ^ (k + 1) * 10 := by ring
      have := ih (n / 10) hdiv
      simp only [List.length_singleton]
      omega

theorem hexDigitChar_lower (n : Nat) : lowerHexChar (hexDigitChar n) = true := by
  unfold hexDigitChar
  split <;> decide

theorem natHexDigits_lower (n : Nat) :
    ∀ c ∈ natHexDigits n, lowerHexChar c = true := by
  induction n using Nat.strong_induction_on with
  | _ n ih =>
    rw [natHexDigits_unfold]
    split
    · intro c hc
      rw [List.mem_singleton] at hc
      subst hc
      exact hexDigitChar_lower n
    · intro c hc
      rw [List.mem_append, List.mem_singleton] at hc
      rcases hc with hc | hc
      · exact ih (n / 16) (Nat.div_lt_self (by omega) (by omega)) c hc
      · subst hc
        exact hexDigitChar_lower (n % 16)

theorem natHexDigits_ne_nil (n : Nat) : natHexDigits n ≠ [] := by
  rw [natHexDigits_unfold]
  split
  · simp
  · simp

theorem natHexDigits_length_one (n : Nat) (h : n < 16) :
    (natHexDigits n).length = 1 := by
  rw [natHexDigits_unfold]
  split
  · simp
  · omega

theorem natHexDigits_length_two (n : Nat) (h16 : 16 ≤ n) (h256 : n < 256) :
    (natHexDigits n).length = 2 := by
  rw [natHexDigits_unfold]
  split
  · omega
  · rw [List.length_append, natHexDigits_length_one (n / 16) (by omega)]
    simp

theorem hexDigitVal_hexDigitChar : ∀ d < 16, hexDigitVal (hexDigitChar d) = some d := by
  decide

theorem digitVal_digitChar : ∀ d < 10, digitVal (digitChar d) = some d := by
  decide

theorem hexValAux_append (xs ys : List Char) :
    ∀ acc, hexValAux acc (xs ++ ys) =
      match hexValAux acc xs with
      | some a => hexValAux a ys
      | none => none := by
  induction xs with
  | nil => intro acc; rfl
  | cons c r ih =>
    intro acc
    simp only [List.cons_append, hexValAux]
    cases hexDigitVal c with
    | none => rfl
    | some d => exact ih (16 * acc + d)

theorem hexValAux_natHexDigits (n : Nat) :
    ∀ acc, hexValAux acc (natHexDigits n) =
      some (acc * 16 ^ (natHexDigits n).length + n) := by
  induction n using Nat.strong_induction_on with
  | _ n ih =>
    intro acc
    rw [natHexDigits_unfold]
    split
    · next h =>
      simp only [hexValAux, hexDigitVal_hexDigitChar n h, List.length_singleton]
      rw [pow_one, Nat.mul_comm]
    · next h =>
      rw [hexValAux_append]
      rw [ih (n / 16) (Nat.div_lt_self (by omega) (by omega)) acc]
      simp only [hexValAux, hexDigitVal_hexDigitChar (n % 16) (by omega),
        List.length_append, List.length_singleton]
      have hrec : n = 16 * (n / 16) + n % 16 := (Nat.div_add_mod n 16).symm
      rw [pow_succ]
      congr 1
      nlinarith [Nat.div_add_mod n 16]

theorem hexVal_natHexDigits (n : Nat) : hexVal (natHexDigits n) = some n := by
  have hne := natHexDigits_ne_nil n
  rcases h : natHexDigits n with _ | ⟨c, r⟩
  · exact absurd h hne
  · have := hexValAux_natHexDigits n 0
    rw [h] at this
    simpa [hexVal] using this

theorem hexValAux_all_hex (l : List Char) :
    ∀ acc v, hexValAux acc l = some v → ∀ c ∈ l, hexDigitVal c ≠ none := by
  induction l with
  | nil => intro acc v _ c hc; exact absurd hc (List.not_mem_nil c)
  | cons x r ih =>
    intro acc v hv c hc
    rw [List.mem_cons] at hc
    simp only [hexValAux] at hv
    rcases hx : hexDigitVal x with _ | d
    · rw [hx] at hv; exact absurd hv (by simp)
    · rw [hx] at hv
      rcases hc with hc | hc
      · subst hc; rw [hx]; simp
      · exact ih (16 * acc + d) v hv c hc

theorem hexVal_all_hex (l : List Char) (v : Nat) (hv : hexVal l = some v) :
    ∀ c ∈ l, hexDigitVal c ≠ none := by
  rcases l with _ | ⟨c, r⟩
  · simp [hexVal] at hv
  · exact hexValAux_all_hex _ 0 v hv

theorem decValAux_append (xs ys : List Char) :
    ∀ acc, decValAux acc (xs ++ ys) =
      match decValAux acc xs with
      | some a => decValAux a ys
      | none => none := by
  induction xs with
  | nil => intro acc; rfl
  | cons c r ih =>
    intro acc
    simp only [List.cons_append, decValAux]
    cases digitVal c with
    | none => rfl
    | some d => exact ih (10 * acc + d)

theorem decValAux_natDigits (n : Nat) :
    ∀ acc, decValAux acc (natDigits n) =
      some (acc * 10 ^ (natDigits n).length + n) := by
  induction n using Nat.strong_induction_on with
  | _ n ih =>
    intro acc
    rw [natDigits_unfold]
    split
    · next h =>
      simp only [decValAux, digitVal_digitChar n h, List.length_singleton]
      rw [pow_one, Nat.mul_comm]
    · next h =>
      rw [decValAux_append]
      rw [ih (n / 10) (Nat.div_lt_self (by omega) (by omega)) acc]
      simp only [decValAux, digitVal_digitChar (n % 10) (by omega),
        List.length_append, List.length_singleton]
      rw [pow_succ]
      congr 1
      nlinarith [Nat.div_add_mod n 10]

theorem decVal_natDigits (n : Nat) : decVal (natDigits n) = some n := by
  have hne := natDigits_ne_nil n
  rcases h : natDigits n with _ | ⟨c, r⟩
  · exact absurd h hne
  · have := decValAux_natDigits n 0
    rw [h] at this
    simpa [decVal] using this

/-! ## XOR-fold lemmas -/

theorem xorFold_foldl_init (l : List Char) :
    ∀ a, l.foldl (fun x c => x ^^^ c.toNat) a = a ^^^ xorFold l := by
  induction l with
  | nil => intro a; simp [xorFold]
  | cons c r ih =>
    intro a
    simp only [xorFold, List.foldl_cons] at *
    rw [ih (a ^^^ c.toNat), ih (0 ^^^ c.toNat)]
    simp [Nat.xor_assoc]

theorem xorFold_cons (c : Char) (r : List Char) :
    xorFold (c :: r) = c.toNat ^^^ xorFold r := by
  have h := xorFold_foldl_init r (0 ^^^ c.toNat)
  simp only [Nat.zero_xor] at h
  simpa [xorFold] using h

theorem xorFold_append (a b : List Char) :
    xorFold (a ++ b) = xorFold a ^^^ xorFold b := by
  simp only [xorFold, List.foldl_append]
  rw [xorFold_foldl_init b (List.foldl (fun x c => x ^^^ c.toNat) 0 a)]
  rfl

theorem xorFold_lt_pow (k : Nat) (l : List Char)
    (h : ∀ c ∈ l, c.toNat < 2 ^ k) : xorFold l < 2 ^ k := by
  induction l with
  | nil => simp [xorFold]
  | cons c r ih =>
    rw [xorFold_cons]
    exact Nat.xor_lt_two_pow (h c (List.mem_cons_self c r))
      (ih fun x hx => h x (List.mem_cons_of_mem c hx))

theorem xorFold_set (l : List Char) :
    ∀ (k : Nat) (c' : Char) (h : k < l.length),
      xorFold (l.set k c') = xorFold l ^^^ (l.get ⟨k, h⟩).toNat ^^^ c'.toNat := by
  induction l with
  | nil => intro k c' h; simp at h
  | cons c r ih =>
    intro k c' h
    cases k with
    | zero =>
      simp only [List.set_cons_zero, xorFold_cons, List.get]
      have : c.toNat ^^^ xorFold r ^^^ c.toNat = xorFold r := by
        rw [Nat.xor_comm c.toNat (xorFold r), Nat.xor_assoc, Nat.xor_self, Nat.xor_zero]
      rw [this, Nat.xor_comm]
    | succ k =>
      simp only [List.set_cons_succ, xorFold_cons, List.get]
      rw [ih k c' (by simpa using h)]
      simp [Nat.xor_assoc]

/-! ## takeWhile / dropWhile decomposition helpers -/

theorem takeWhile_append_cons (p : Char → Bool) (a : List Char) (x : Char) (b : List Char)
    (ha : ∀ c ∈ a, p c = true) (hx : p x = false) :
    (a ++ x :: b).takeWhile p = a := by
  induction a with
  | nil => simp [List.takeWhile_cons, hx]
  | cons c r ih =>
    have hc : p c = true := ha c (List.mem_cons_self c r)
    simp only [List.cons_append, List.takeWhile_cons, hc]
    rw [ih fun d hd => ha d (List.mem_cons_of_mem c hd)]
    simp

theorem dropWhile_append_cons (p : Char → Bool) (a : List Char) (x : Char) (b : List Char)
    (ha : ∀ c ∈ a, p c = true) (hx : p x = false) :
    (a ++ x :: b).dropWhile p = x :: b := by
  induction a with
  | nil => simp [List.dropWhile_cons, hx]
  | cons c r ih =>
    have hc : p c = true := ha c (List.mem_cons_self c r)
    simp only [List.cons_append, List.dropWhile_cons, hc]
    exact ih fun d hd => ha d (List.mem_cons_of_mem c hd)

theorem takeWhile_append_all (p : Char → Bool) (a b : List Char)
    (ha : ∀ c ∈ a, p c = true) :
    (a ++ b).takeWhile p = a ++ b.takeWhile p := by
  induction a with
  | nil => simp
  | cons c r ih =>
    have hc : p c = true := ha c (List.mem_cons_self c r)
    simp only [List.cons_append, List.takeWhile_cons, hc]
    rw [ih fun d hd => ha d (List.mem_cons_of_mem c hd)]
    simp

theorem dropWhile_append_all (p : Char → Bool) (a b : List Char)
    (ha : ∀ c ∈ a, p c = true) :
    (a ++ b).dropWhile p = b.dropWhile p := by
  induction a with
  | nil => simp
  | cons c r ih =>
    have hc : p c = true := ha c (List.mem_cons_self c r)
    simp only [List.cons_append, List.dropWhile_cons, hc]
    exact ih fun d hd => ha d (List.mem_cons_of_mem c hd)

theorem dropWhile_eq_cons_head (p : Char → Bool) (l : List Char) :
    ∀ x xs, l.dropWhile p = x :: xs → p x = false := by
  induction l with
  | nil => intro x xs h; simp at h
  | cons c r ih =>
    intro x xs h
    rw [List.dropWhile_cons] at h
    by_cases hc : p c = true
    · rw [if_pos hc] at h
      exact ih x xs h
    · rw [if_neg hc] at h
      cases h
      exact Bool.not_eq_true _ ▸ Bool.of_not_eq_true hc

/-! ## Transmitter character sets and line decomposition -/

/-- Characters that can occur in a rendered numeric field or its separators:
comma (44), minus (45), dot (46) or a decimal digit (48–57). -/
def fieldCharP (c : Char) : Prop :=
  c.toNat = 44 ∨ c.toNat = 45 ∨ c.toNat = 46 ∨ (48 ≤ c.toNat ∧ c.toNat ≤ 57)

theorem fieldCharP_lt (c : Char) (h : fieldCharP c) : c.toNat < 64 := by
  rcases h with h | h | h | h <;> omega

theorem fixedDigits_fieldCharP (v : Int) (dp : Nat) :
    ∀ c ∈ fixedDigits v dp, fieldCharP c := by
  intro c hc
  unfold fixedDigits at hc
  rw [List.mem_append, List.mem_append] at hc
  rcases hc with (hc | hc) | hc
  · split at hc
    · rw [List.mem_singleton] at hc
      subst hc
      right; left; rfl
    · exact absurd hc (List.not_mem_nil c)
  · have := natDigits_range _ c hc
    right; right; right; exact this
  · rw [List.mem_cons] at hc
    rcases hc with hc | hc
    · subst hc
      right; right; left; rfl
    · unfold padZeros at hc
      rw [List.mem_append] at hc
      rcases hc with hc | hc
      · rw [List.eq_of_mem_replicate hc]
        right; right; right; exact ⟨by rfl, by decide⟩
      · have := natDigits_range _ c hc
        right; right; right; exact this

theorem intDigits_fieldCharP (v : Int) :
    ∀ c ∈ intDigits v, fieldCharP c := by
  intro c hc
  unfold intDigits at hc
  split at hc
  · rw [List.mem_cons] at hc
    rcases hc with hc | hc
    · subst hc
      right; left; rfl
    · right; right; right; exact natDigits_range _ c hc
  · right; right; right; exact natDigits_range _ c hc

theorem intDigits_ne_comma (v : Int) : ∀ c ∈ intDigits v, c ≠ ',' := by
  intro c hc he
  subst he
  have h44 : (',' : Char).toNat = 44 := by decide
  unfold intDigits at hc
  split at hc
  · rw [List.mem_cons] at hc
    rcases hc with hc | hc
    · exact absurd hc (by decide)
    · have := natDigits_range _ _ hc
      omega
  · have := natDigits_range _ _ hc
    omega

theorem txFields_fieldCharP (s : TxState) : ∀ c ∈ txFields s, fieldCharP c := by
  intro c hc
  unfold txFields at hc
  simp only [List.mem_append, List.mem_cons] at hc
  rcases hc with hc | hc | hc | hc | hc | hc | hc | hc | hc | hc | hc
  · exact fixedDigits_fieldCharP _ _ c hc
  · subst hc; left; rfl
  · exact fixedDigits_fieldCharP _ _ c hc
  · subst hc; left; rfl
  · exact fixedDigits_fieldCharP _ _ c hc
  · subst hc; left; rfl
  · exact fixedDigits_fieldCharP _ _ c hc
  · subst hc; left; rfl
  · exact intDigits_fieldCharP _ c hc
  · subst hc; left; rfl
  · exact intDigits_fieldCharP _ c hc

/-- Every character of the packet body (between `$` and `*`) is one of
`F`, `L`, `T` or a field character. -/
theorem txBody_chars (s : TxState) :
    ∀ c ∈ txBody s, c = 'F' ∨ c = 'L' ∨ c = 'T' ∨ fieldCharP c := by
  intro c hc
  unfold txBody at hc
  simp only [List.mem_cons] at hc
  rcases hc with hc | hc | hc | hc | hc
  · subst hc; left; rfl
  · subst hc; right; left; rfl
  · subst hc; right; right; left; rfl
  · subst hc; right; right; right; left; rfl
  · right; right; right; exact txFields_fieldCharP s c hc

theorem txBody_ne_star (s : TxState) : ∀ c ∈ txBody s, (c != '*') = true := by
  intro c hc
  rcases txBody_chars s c hc with h | h | h | h
  · subst h; decide
  · subst h; decide
  · subst h; decide
  · simp only [bne_iff_ne, ne_eq]
    intro he
    subst he
    rcases h with h | h | h | h <;> simp_all

theorem txBody_ne_bar (s : TxState) : ∀ c ∈ txBody s, c ≠ '|' := by
  intro c hc
  rcases txBody_chars s c hc with h | h | h | h
  · subst h; decide
  · subst h; decide
  · subst h; decide
  · intro he
    subst he
    rcases h with h | h | h | h <;> simp_all

theorem txBody_lt_128 (s : TxState) : ∀ c ∈ txBody s, c.toNat < 128 := by
  intro c hc
  rcases txBody_chars s c hc with h | h | h | h
  · subst h; decide
  · subst h; decide
  · subst h; decide
  · have := fieldCharP_lt c h; omega

/-- The spec's payload view of a transmitted line is exactly the packet body
(the `$FLT,...` text without the `$`). -/
theorem payloadOf_txLine (s : TxState) : payloadOf (txLine s) = txBody s := by
  unfold payloadOf txLine txPayload
  rw [List.cons_append, List.drop_one, List.tail_cons]
  exact takeWhile_append_cons _ _ _ _ (txBody_ne_star s) (by decide)

/-- The spec's after-star view of a transmitted line is exactly the rendered
checksum field. -/
theorem afterStarOf_txLine (s : TxState) :
    afterStarOf (txLine s) = natHexDigits (txChecksum s) := by
  unfold afterStarOf txLine txPayload
  rw [List.cons_append,
    show List.drop 1 ('$' :: (txBody s ++ '*' :: natHexDigits (txChecksum s))) =
      txBody s ++ '*' :: natHexDigits (txChecksum s) from rfl]
  rw [dropWhile_append_cons _ _ _ _ (txBody_ne_star s) (by decide)]
  rfl

/-- The transmitted checksum always lies in `[64, 128)`: the only payload
bytes with bit 6 set are the three tag letters `F`, `L`, `T`, so their XOR
(94) keeps bit 6 set against the remaining bytes, which are all below 64. -/
theorem txChecksum_bounds (s : TxState) : 64 ≤ txChecksum s ∧ txChecksum s < 128 := by
  have hy : xorFold (',' :: txFields s) < 2 ^ 6 := by
    refine xorFold_lt_pow 6 _ ?_
    intro c hc
    rw [List.mem_cons] at hc
    rcases hc with hc | hc
    · subst hc; decide
    · exact fieldCharP_lt c (txFields_fieldCharP s c hc)
  have hb : txChecksum s = 94 ^^^ xorFold (',' :: txFields s) := by
    unfold txChecksum txBody
    rw [xorFold_cons, xorFold_cons, xorFold_cons, ← Nat.xor_assoc, ← Nat.xor_assoc]
    congr 1
  have h64 : (2 : Nat) ^ 6 = 64 := by norm_num
  constructor
  · by_contra hlt
    push_neg at hlt
    have hself : txChecksum s ^^^ xorFold (',' :: txFields s) = 94 := by
      rw [hb, Nat.xor_assoc, Nat.xor_self, Nat.xor_zero]
    have : (94 : Nat) < 2 ^ 6 := by
      rw [← hself]
      exact Nat.xor_lt_two_pow (by omega) hy
    omega
  · have h94 : (94 : Nat) < 2 ^ 7 := by norm_num
    have hy7 : xorFold (',' :: txFields s) < 2 ^ 7 := by
      have : (2 : Nat) ^ 6 ≤ 2 ^ 7 := by norm_num
      omega
    have := Nat.xor_lt_two_pow h94 hy7
    rw [hb]
    omega

/-- C1: the checksum value appended after `*` on every transmitted line equals
the XOR-fold of exactly the bytes strictly between the leading `$` and the
`*`: the transmitter's loop XORs the packet bytes from index 1 up to (but not
including) the `*` appended afterwards. -/
theorem tx_checksum_is_xor_fold_of_payload (s : TxState) :
    hexVal (afterStarOf (txLine s)) = some (xorFold (payloadOf (txLine s))) := by
  rw [afterStarOf_txLine, payloadOf_txLine, hexVal_natHexDigits]
  rfl

/-- C6: every transmitted line's checksum field is exactly two (lowercase)
hexadecimal digits.  `String(checksum, HEX)` does not zero-pad, but the
checksum always lies in `[0x40, 0x7F]` — the three tag bytes `F`, `L`, `T`
are the only payload bytes with bit 6 set — so values below 0x10 (which
would render as a single digit) can never occur. -/
theorem tx_checksum_field_is_two_hex_digits (s : TxState) :
    (afterStarOf (txLine s)).length = 2 ∧
      (afterStarOf (txLine s)).all lowerHexChar = true ∧
      64 ≤ txChecksum s ∧ txChecksum s < 128 := by
  obtain ⟨h1, h2⟩ := txChecksum_bounds s
  rw [afterStarOf_txLine]
  refine ⟨natHexDigits_length_two _ (by omega) (by omega), ?_, h1, h2⟩
  rw [List.all_eq_true]
  exact fun c hc => natHexDigits_lower _ c hc

/-! ## Sequence-number claims -/

theorem seqField_extract (a b : List Char) (hb : ∀ c ∈ b, c ≠ ',') :
    ((a ++ ',' :: b).reverse.takeWhile (· != ',')).reverse = b := by
  rw [List.reverse_append, List.reverse_cons, List.append_assoc,
    List.singleton_append]
  rw [takeWhile_append_cons _ _ _ _
    (fun c hc => by
      rw [bne_iff_ne]
      exact hb c (List.mem_reverse.mp hc)) (by decide)]
  exact List.reverse_reverse b

theorem wrap32_succ (i : Int) : wrap32 (wrap32 i + 1) = wrap32 (i + 1) := by
  unfold wrap32
  have h31 : (2 : Int) ^ 31 = 2147483648 := by norm_num
  have h32 : (2 : Int) ^ 32 = 4294967296 := by norm_num
  rw [h31, h32]
  omega

theorem wrap32_of_lt (n : Nat) (h : n < 2 ^ 31) : wrap32 n = n := by
  unfold wrap32
  have h31 : (2 : Int) ^ 31 = 2147483648 := by norm_num
  have h32 : (2 : Int) ^ 32 = 4294967296 := by norm_num
  have hn : (n : Int) < 2147483648 := by
    have : (n : Int) < ((2 ^ 31 : Nat) : Int) := by exact_mod_cast h
    simpa using this
  have hn0 : (0 : Int) ≤ (n : Int) := Int.natCast_nonneg n
  rw [h31, h32]
  omega

/-- The `n`-th transmission carries the 32-bit counter value `n` reduced to
signed 32-bit (two's complement). -/
theorem txStateAt_packetNum (g : Nat → GpsData) : ∀ n, (txStateAt g n).packetNum = wrap32 n := by
  intro n
  induction n with
  | zero =>
    show (0 : Int) = wrap32 0
    unfold wrap32
    norm_num
  | succ n ih =>
    show wrap32 ((txStateAt g n).packetNum + 1) = wrap32 ((n + 1 : Nat) : Int)
    rw [ih, wrap32_succ]
    norm_num

theorem intDigits_ofNat (n : Nat) : intDigits (n : Int) = natDigits n := by
  unfold intDigits
  rw [if_neg (by omega)]
  rw [Int.natAbs_ofNat]

theorem txBody_last_field (s : TxState) :
    txBody s =
      ('F' :: 'L' :: 'T' :: ',' ::
        (fixedDigits s.latitude 6 ++ ',' ::
          (fixedDigits s.longitude 6 ++ ',' ::
            (fixedDigits s.altitude 1 ++ ',' ::
              (fixedDigits s.speed_mph 1 ++ ',' :: intDigits s.satellites)))))
        ++ ',' :: intDigits s.packetNum := by
  simp [txBody, txFields, List.append_assoc]

theorem seqFieldOf_txLine (s : TxState) :
    seqFieldOf (txLine s) = intDigits s.packetNum := by
  unfold seqFieldOf
  rw [payloadOf_txLine, txBody_last_field]
  exact seqField_extract _ _ (intDigits_ne_comma s.packetNum)

/-- The constant all-zero GPS stream (cold start, no fix). -/
def gZero : Nat → GpsData := fun _ =>
  { latitude := 0, longitude := 0, altitude := 0, speed_mph := 0, satellites := 0 }

/-- C9 counterexample: `packetNum` is a 32-bit `int`, so it wraps: the packet
with index `2^31` carries counter value `-2^31`, which is not one greater
than the previous packet's `2^31 - 1` — the sequence numbers are not
strictly monotonically increasing over the whole stream. -/
theorem tx_seq_wraps_after_packet_2147483647 :
    (txStateAt gZero 2147483648).packetNum ≠ (txStateAt gZero 2147483647).packetNum + 1 := by
  rw [txStateAt_packetNum gZero 2147483648, txStateAt_packetNum gZero 2147483647]
  unfold wrap32
  have h31 : (2 : Int) ^ 31 = 2147483648 := by norm_num
  have h32 : (2 : Int) ^ 32 = 4294967296 := by norm_num
  rw [h31, h32]
  norm_num

/-- C9 (amended): for every GPS-reading stream, the `n`-th transmitted packet
(0-based) carries `packetNum = n` and its rendered sequence field parses back
to `n`, for every `n` before the 32-bit counter wraps (`n < 2^31`): the first
packet carries 0 and each subsequent packet's sequence number is exactly one
greater than the previous one until the counter overflows after packet
`2^31 - 1`. -/
theorem tx_seq_increments_until_wrap (g : Nat → GpsData) (n : Nat) (h : n < 2 ^ 31) :
    (txStateAt g n).packetNum = n ∧
      decVal (seqFieldOf (txLine (txStateAt g n))) = some n := by
  have hpn : (txStateAt g n).packetNum = (n : Int) := by
    rw [txStateAt_packetNum g n, wrap32_of_lt n h]
  refine ⟨hpn, ?_⟩
  rw [seqFieldOf_txLine, hpn, intDigits_ofNat, decVal_natDigits]

/-- C9 witness: the seventh packet of the all-zero stream carries sequence
number 6 and renders it back. -/
theorem tx_seq_increments_until_wrap_witness :
    (txStateAt gZero 6).packetNum = (6 : Nat) ∧
      decVal (seqFieldOf (txLine (txStateAt gZero 6))) = some 6 :=
  tx_seq_increments_until_wrap gZero 6 (by norm_num)

/-! ## Forwarded-line claims -/

theorem lowerHexChar_ne_bar (c : Char) (h : lowerHexChar c = true) : c ≠ '|' := by
  intro he
  subst he
  exact absurd h (by decide)

theorem txLine_ne_bar (s : TxState) : ∀ c ∈ txLine s, (c != '|') = true := by
  intro c hc
  rw [bne_iff_ne]
  unfold txLine txPayload at hc
  simp only [List.cons_append, List.mem_cons, List.mem_append] at hc
  rcases hc with hc | hc | hc | hc
  · subst hc; decide
  · exact txBody_ne_bar s c hc
  · subst hc; decide
  · exact lowerHexChar_ne_bar c (natHexDigits_lower _ c hc)

theorem suffixOf_forwardLine (s : TxState) (r v : Int) :
    suffixOf (forwardLine (txLine s) r v) = intDigits r ++ ',' :: fixedDigits v 2 := by
  unfold suffixOf forwardLine
  rw [dropWhile_append_cons _ _ _ _ (txLine_ne_bar s) (by decide)]
  rfl

theorem intDigits_ne_comma_b (v : Int) : ∀ c ∈ intDigits v, (c != ',') = true := by
  intro c hc
  rw [bne_iff_ne]
  exact intDigits_ne_comma v c hc

theorem rssiFieldOf_forwardLine (s : TxState) (r v : Int) :
    rssiFieldOf (forwardLine (txLine s) r v) = intDigits r := by
  unfold rssiFieldOf
  rw [suffixOf_forwardLine]
  exact takeWhile_append_cons _ _ _ _ (intDigits_ne_comma_b r) (by decide)

theorem snrFieldOf_forwardLine (s : TxState) (r v : Int) :
    snrFieldOf (forwardLine (txLine s) r v) = fixedDigits v 2 := by
  unfold snrFieldOf
  rw [suffixOf_forwardLine]
  rw [dropWhile_append_cons _ _ _ _ (intDigits_ne_comma_b r) (by decide)]
  rfl

theorem padZeros_length (w : Nat) (ds : List Char) (h : ds.length ≤ w) :
    (padZeros w ds).length = w := by
  unfold padZeros
  rw [List.length_append, List.length_replicate]
  omega

theorem padZeros_digits_no_dot (w x : Nat) :
    ∀ c ∈ padZeros w (natDigits x), (c != '.') = true := by
  intro c hc
  rw [bne_iff_ne]
  intro he
  subst he
  have h46 : ('.' : Char).toNat = 46 := by decide
  unfold padZeros at hc
  rw [List.mem_append] at hc
  rcases hc with hc | hc
  · exact absurd (List.eq_of_mem_replicate hc) (by decide)
  · have := natDigits_range _ _ hc
    omega

theorem fixedDigits_two_decimals (v : Int) :
    decimalsAfterDot (fixedDigits v 2) = 2 := by
  unfold decimalsAfterDot fixedDigits
  have hm : v.natAbs % 10 ^ 2 < 10 ^ (1 + 1) := Nat.mod_lt _ (by positivity)
  have hlen : (padZeros 2 (natDigits (v.natAbs % 10 ^ 2))).length = 2 :=
    padZeros_length 2 _ (natDigits_length_le 1 _ hm)
  have hnodot : ∀ c ∈ (padZeros 2 (natDigits (v.natAbs % 10 ^ 2))).reverse,
      (c != '.') = true := by
    intro c hc
    exact padZeros_digits_no_dot 2 _ c (List.mem_reverse.mp hc)
  simp only [List.reverse_append, List.reverse_cons, List.append_assoc,
    List.singleton_append, List.cons_append]
  rw [takeWhile_append_cons _ _ _ _ hnodot (by decide)]
  rw [List.length_reverse, hlen]

/-- The all-zero transmitter state (GPS cold start, first packet). -/
def tx0 : TxState :=
  { latitude := 0, longitude := 0, altitude := 0, speed_mph := 0,
    satellites := 0, packetNum := 0 }

/-- C8 counterexample: the receiver prints the forwarded snr with Arduino's
default of two decimal places, not one — for the packet
`$FLT,0.000000,0.000000,0.0,0.0,0,0*5e` with rssi −42 and snr 5.25 the
forwarded line ends in `|-42,5.25`, whose snr field has two digits after the
dot. -/
theorem rx_forward_snr_not_one_decimal :
    decimalsAfterDot (snrFieldOf (forwardLine (txLine tx0) (-42) 525)) ≠ 1 := by
  decide

/-- C8 (amended): every forwarded line is the received packet bytes followed
by `|<rssi>,<snr>` where rssi is rendered as a decimal integer and snr as a
decimal with exactly **two** decimal places (Arduino `Serial.println(float)`
default), not one. -/
theorem rx_forward_appends_rssi_snr_suffix (s : TxState) (r v : Int) :
    forwardLine (txLine s) r v = txLine s ++ '|' :: (intDigits r ++ ',' :: fixedDigits v 2) ∧
      rssiFieldOf (forwardLine (txLine s) r v) = intDigits r ∧
      snrFieldOf (forwardLine (txLine s) r v) = fixedDigits v 2 ∧
      decimalsAfterDot (snrFieldOf (forwardLine (txLine s) r v)) = 2 := by
  refine ⟨rfl, rssiFieldOf_forwardLine s r v, snrFieldOf_forwardLine s r v, ?_⟩
  rw [snrFieldOf_forwardLine]
  exact fixedDigits_two_decimals v

/-! ## Receiver signal-loss claims -/

theorem elapsed_self (n : Nat) : elapsed n n = 0 := by
  unfold elapsed
  have h : (2 : Nat) ^ 32 = 4294967296 := by norm_num
  rw [h]
  omega

theorem forwardLine_ne_sentinel (p : List Char) (r v : Int) :
    forwardLine p r v ≠ sentinelLine := by
  intro he
  have hb : '|' ∈ forwardLine p r v := by
    unfold forwardLine
    rw [List.mem_append]
    right
    exact List.mem_cons_self _ _
  rw [he] at hb
  exact absurd hb (by decide)

/-- C7: if at least one packet has been received (`lastPacketTime > 0`) and
the 5000 ms window has been exceeded, one receiver loop iteration with no
incoming packet prints exactly the literal `$SIGNAL_LOST` line and only
resets `lastPacketTime`; and feeding that sentinel line to the ingestion
pipeline leaves the flight state unchanged (it becomes a forwarded
`SignalLost` event, not a transition). -/
theorem rx_timeout_emits_sentinel_no_transition (s : RxState) (now : Nat)
    (fs : FsmState) (t : Nat)
    (h1 : 0 < s.lastPacketTime) (h2 : 5000 < elapsed now s.lastPacketTime) :
    rxStep s { now := now, packet := none } =
        ({ s with lastPacketTime := 0 }, [sentinelLine]) ∧
      processLine fs t sentinelLine = (fs, [FsmEvent.SignalLostEvt]) := by
  constructor
  · have hc : 0 < s.lastPacketTime ∧ 5000 < elapsed now s.lastPacketTime := ⟨h1, h2⟩
    simp [rxStep, hc]
  · rfl

/-- C7 witness: a concrete timed-out state emits the sentinel. -/
theorem rx_timeout_emits_sentinel_no_transition_witness :
    rxStep { packetsReceived := 3, lastPacketTime := 100 } { now := 7000, packet := none } =
        ({ packetsReceived := 3, lastPacketTime := 0 }, [sentinelLine]) ∧
      processLine fsmInit 0 sentinelLine = (fsmInit, [FsmEvent.SignalLostEvt]) :=
  rx_timeout_emits_sentinel_no_transition
    { packetsReceived := 3, lastPacketTime := 100 } 7000 fsmInit 0
    (by decide) (by decide)

theorem rx_good_inv (is : List RxInput) :
    ∀ (s : RxState) (armed : Bool), (0 < s.lastPacketTime → armed = true) →
      goodFlags armed (rxFlags s is) = true := by
  induction is with
  | nil => intro s armed _; rfl
  | cons i rest ih =>
    intro s armed harm
    rcases i with ⟨now, pk⟩
    rcases pk with _ | ⟨p, r, v⟩
    · by_cases hc : 0 < s.lastPacketTime ∧ 5000 < elapsed now s.lastPacketTime
      · have hstep : rxStep s ⟨now, none⟩ = ({ s with lastPacketTime := 0 }, [sentinelLine]) := by
          simp [rxStep, hc]
        have hemit : emitsSentinel s ⟨now, none⟩ = true := by
          simp [emitsSentinel, hstep]
        have harm' : armed = true := harm hc.1
        subst harm'
        simp only [rxFlags, hstep, hemit, goodFlags, Option.isSome_none,
          Bool.true_or, Bool.true_and, if_true]
        exact ih _ false (by simp)
      · have hstep : rxStep s ⟨now, none⟩ = (s, []) := by
          simp [rxStep, hc]
        have hemit : emitsSentinel s ⟨now, none⟩ = false := by
          simp [emitsSentinel, hstep]
        simp only [rxFlags, hstep, hemit, goodFlags, Option.isSome_none,
          Bool.or_false, if_false]
        exact ih s armed harm
    · have hcond : ¬(0 < now ∧ 5000 < elapsed now now) := by
        rw [elapsed_self]
        omega
      have hstep : rxStep s ⟨now, some (p, r, v)⟩ =
          ({ packetsReceived := s.packetsReceived + 1, lastPacketTime := now },
            [forwardLine p r v]) := by
        simp [rxStep, hcond]
      have hemit : emitsSentinel s ⟨now, some (p, r, v)⟩ = false := by
        simp only [emitsSentinel, hstep, List.mem_singleton, decide_eq_false_iff_not]
        exact fun he => forwardLine_ne_sentinel p r v he.symm
      simp only [rxFlags, hstep, hemit, goodFlags, Option.isSome_some,
        Bool.or_true, if_false]
      exact ih _ true (fun _ => rfl)

/-- C10: starting from the boot state, over every possible input trace the
receiver prints `$SIGNAL_LOST` at most once per loss episode (a packet must
arrive between two sentinel prints, because printing resets
`lastPacketTime` to 0) and never prints it before the first packet has ever
arrived (the check is gated on `lastPacketTime > 0`). -/
theorem rx_sentinel_once_per_episode_and_never_before_first_packet :
    (∀ is, goodFlags false (rxFlags rxInit is) = true) ∧
      (∀ (pr : Int) (now : Nat),
        emitsSentinel { packetsReceived := pr, lastPacketTime := 0 }
          { now := now, packet := none } = false) := by
  constructor
  · intro is
    refine rx_good_inv is rxInit false ?_
    intro h
    simp [rxInit] at h
  · intro pr now
    have hstep : rxStep { packetsReceived := pr, lastPacketTime := 0 }
        { now := now, packet := none } =
        ({ packetsReceived := pr, lastPacketTime := 0 }, []) := by
      simp [rxStep]
    simp [emitsSentinel, hstep]

/-! ## Flight-state-machine claims -/

/-- Every step of the state machine either emits nothing and preserves
open/closed, emits one `FlightStarted` opening a closed session, or emits one
`FlightEnded` closing an open session. -/
theorem fsmStep_shape (c : FsmConfig) (s : FsmState) (t : Nat) (sp al : ℚ) :
    ((fsmStep c s t sp al).2 = [] ∧ openB (fsmStep c s t sp al).1 = openB s) ∨
    (∃ t0, (fsmStep c s t sp al).2 = [FsmEvent.FlightStarted t0] ∧
      openB s = false ∧ openB (fsmStep c s t sp al).1 = true) ∨
    (∃ t1, (fsmStep c s t sp al).2 = [FsmEvent.FlightEnded t1] ∧
      openB s = true ∧ openB (fsmStep c s t sp al).1 = false) := by
  rcases s with ⟨mode, fl⟩
  cases mode with
  | Standby =>
    by_cases h : c.startThreshold ≤ sp
    · left; simp [fsmStep, openB, h]
    · left; simp [fsmStep, openB, h]
  | PendingStart t0 =>
    by_cases h1 : sp < c.startThreshold
    · left; simp [fsmStep, openB, h1]
    · by_cases h2 : c.startDuration ≤ t - t0
      · right; left; exact ⟨t0, by simp [fsmStep, openB, h1, h2]⟩
      · left; simp [fsmStep, openB, h1, h2]
  | InFlight =>
    by_cases h : sp ≤ c.endThreshold
    · left; simp [fsmStep, openB, h]
    · left; simp [fsmStep, openB, h]
  | PendingEnd t1 =>
    by_cases h1 : c.endThreshold < sp
    · left; simp [fsmStep, openB, h1]
    · by_cases h2 : c.endDuration ≤ t - t1
      · right; right; exact ⟨t1, by simp [fsmStep, openB, h1, h2]⟩
      · left; simp [fsmStep, openB, h1, h2]

theorem fsmRun_cons (c : FsmConfig) (s : FsmState) (t : Nat) (sp al : ℚ)
    (rest : List (Nat × ℚ × ℚ)) :
    fsmRun c s ((t, sp, al) :: rest) =
      ((fsmRun c (fsmStep c s t sp al).1 rest).1,
        (fsmStep c s t sp al).2 ++ (fsmRun c (fsmStep c s t sp al).1 rest).2) := rfl

theorem fsm_run_noDoubleStart (c : FsmConfig) (inputs : List (Nat × ℚ × ℚ)) :
    ∀ s : FsmState, noDoubleStart (openB s) (fsmRun c s inputs).2 = true := by
  induction inputs with
  | nil => intro s; rfl
  | cons x rest ih =>
    intro s
    obtain ⟨t, sp, al⟩ := x
    rw [fsmRun_cons]
    rcases fsmStep_shape c s t sp al with ⟨he, ho⟩ | ⟨t0, he, hs, ho⟩ | ⟨t1, he, hs, ho⟩
    · rw [he, List.nil_append, ← ho]
      exact ih _
    · rw [he, hs, List.cons_append, List.nil_append]
      simp only [noDoubleStart, Bool.not_false, Bool.true_and]
      have hrec := ih (fsmStep c s t sp al).1
      rw [ho] at hrec
      exact hrec
    · rw [he, List.cons_append, List.nil_append]
      simp only [noDoubleStart]
      have hrec := ih (fsmStep c s t sp al).1
      rw [ho] at hrec
      exact hrec

/-- C5: over every input sample stream and every configuration, the event
sequence the state machine emits never contains two `FlightStarted` events
without an intervening `FlightEnded`. -/
theorem fsm_never_two_consecutive_flight_started (c : FsmConfig)
    (inputs : List (Nat × ℚ × ℚ)) :
    noDoubleStart false (fsmRun c fsmInit inputs).2 = true := by
  have h := fsm_run_noDoubleStart c inputs fsmInit
  simpa [openB, fsmInit] using h

/-- The spec's Scenario A sample stream: speeds [0,0,6,6,6,6,6,6,1,1] sampled
once per second from t = 0 (altitude 0 throughout). -/
def scenarioA : List (Nat × ℚ × ℚ) :=
  [(0, 0, 0), (1, 0, 0), (2, 6, 0), (3, 6, 0), (4, 6, 0),
   (5, 6, 0), (6, 6, 0), (7, 6, 0), (8, 1, 0), (9, 1, 0)]

/-- C3: on Scenario A with the spec configuration (start 5 mph / 5 s), the
machine emits `FlightStarted` exactly once, on the sample at t = 7 (and at no
other step), and the open Flight's recorded start time is t = 2, the original
crossing into `PendingStart`, not the confirmation time. -/
theorem fsm_scenarioA_starts_once_at_t7_with_start_time_2 :
    fsmRunSteps specConfig fsmInit scenarioA =
        [[], [], [], [], [], [], [], [FsmEvent.FlightStarted 2], [], []] ∧
      ((fsmRun specConfig fsmInit scenarioA).1.openFlight.map Flight.startTime) = some 2 := by
  decide

/-- C4: processing a `SignalLost` control event (the decoded `$SIGNAL_LOST`
line) leaves the state machine's state — mode, open Flight, peaks — entirely
unchanged and emits only the forwarded `SignalLost` event, never
`FlightEnded`; the dashboard's `signal_lost` handler likewise touches only
the status display, leaving the in-flight badge untouched. -/
theorem signal_lost_changes_no_flight_state (fs : FsmState) (t : Nat)
    (d : DashboardState) :
    processLine fs t sentinelLine = (fs, [FsmEvent.SignalLostEvt]) ∧
      (onSignalLost d).flightBadgeText = d.flightBadgeText ∧
      (onSignalLost d).flightBadgeClass = d.flightBadgeClass :=
  ⟨rfl, rfl, rfl⟩

/-! ## Single-byte corruption detection (C2) -/

theorem char_toNat_inj (c c' : Char) (h : c.toNat = c'.toNat) : c = c' := by
  rcases c with ⟨⟨⟨cv, hcv⟩⟩, hc⟩
  rcases c' with ⟨⟨⟨cv', hcv'⟩⟩, hc'⟩
  simp only [Char.toNat, UInt32.toNat, BitVec.toNat] at h
  subst h
  rfl

theorem numericChar_or_comma_ne_bar (c : Char)
    (h : (numericChar c || c == ',') = true) : c ≠ '|' := by
  intro he
  subst he
  exact absurd h (by decide)

theorem payloadOk_shape (P : List Char) (h : payloadOk P = true) :
    ∃ body, P = 'F' :: 'L' :: 'T' :: ',' :: body ∧
      (∀ c ∈ body, (numericChar c || c == ',') = true) := by
  unfold payloadOk at h
  split at h
  · next f lt t comma body =>
    simp only [Bool.and_eq_true, beq_iff_eq] at h
    obtain ⟨⟨⟨⟨⟨hf, hl⟩, ht⟩, hcm⟩, hall⟩, _⟩ := h
    subst hf; subst hl; subst ht; subst hcm
    exact ⟨body, rfl, by rwa [List.all_eq_true] at hall⟩
  · exact absurd h (by simp)

theorem payloadOk_no_bar (P : List Char) (h : payloadOk P = true) :
    ∀ c ∈ P, c ≠ '|' := by
  obtain ⟨body, hP, hall⟩ := payloadOk_shape P h
  subst hP
  intro c hc
  simp only [List.mem_cons] at hc
  rcases hc with rfl | rfl | rfl | rfl | hc
  · decide
  · decide
  · decide
  · decide
  · exact numericChar_or_comma_ne_bar c (hall c hc)

theorem checksumOk_of_ne_xorFold (P P' checkF : List Char)
    (h : checksumOk P checkF = true) (hne : xorFold P' ≠ xorFold P) :
    checksumOk P' checkF = false := by
  unfold checksumOk at h ⊢
  rcases hv : hexVal checkF with _ | v
  · rfl
  · rw [hv] at h
    rw [beq_iff_eq] at h
    subst h
    rw [beq_eq_false_iff_ne]
    exact fun he => hne (he ▸ rfl)

theorem checksumOk_of_star_mem (P' checkF : List Char) (hmem : '*' ∈ checkF) :
    checksumOk P' checkF = false := by
  unfold checksumOk
  rcases hv : hexVal checkF with _ | v
  · rfl
  · exact absurd (show hexDigitVal '*' = none by decide)
      (hexVal_all_hex checkF v hv '*' hmem)

theorem validatesB_cons (c : Char) (rest : List Char) :
    validatesB (c :: rest) =
      (c == '$' && !(rest.dropWhile (· != '*')).isEmpty &&
        payloadOk (rest.takeWhile (· != '*')) &&
        checksumOk (rest.takeWhile (· != '*'))
          (((rest.dropWhile (· != '*')).drop 1).takeWhile (· != '|')) &&
        ((((rest.dropWhile (· != '*')).drop 1).dropWhile (· != '|')).isEmpty ||
          suffixOk ((((rest.dropWhile (· != '*')).drop 1).dropWhile (· != '|')).drop 1))) :=
  rfl

/-- C2: for every line that validates (structure and checksum), changing any
single payload byte (a byte strictly between `$` and `*`) to any different
byte makes validation fail — either structurally (when the new byte is `*`,
the checksum field acquires a `*` and no longer parses as hex) or by checksum
mismatch (the recomputed XOR fold differs from the supplied value). -/
theorem single_payload_byte_mutation_fails_validation
    (l : List Char) (p : Nat) (c' : Char)
    (hv : validatesB l = true)
    (hp1 : 1 ≤ p) (hp2 : p ≤ (payloadOf l).length)
    (hmut : l[p]? ≠ some c') :
    validatesB (l.set p c') = false := by
  rcases l with _ | ⟨c0, rest⟩
  · exact absurd hv (by simp [validatesB])
  rw [validatesB_cons] at hv
  simp only [Bool.and_eq_true, beq_iff_eq] at hv
  obtain ⟨⟨⟨⟨hc0, hDne⟩, hpok⟩, hck⟩, hsfx⟩ := hv
  obtain ⟨tail, hDcons⟩ : ∃ tail, rest.dropWhile (· != '*') = '*' :: tail := by
    rcases hDc : rest.dropWhile (· != '*') with _ | ⟨d, tail⟩
    · rw [hDc] at hDne
      simp at hDne
    · have hh := dropWhile_eq_cons_head (· != '*') rest d tail hDc
      rw [bne_eq_false_iff_eq] at hh
      subst hh
      exact ⟨tail, rfl⟩
  obtain ⟨P, hP⟩ : ∃ P, rest.takeWhile (· != '*') = P := ⟨_, rfl⟩
  rw [hP] at hpok hck
  have hp2' : p ≤ P.length := by
    have : payloadOf (c0 :: rest) = P := hP
    rw [this] at hp2
    exact hp2
  have hPD : P ++ '*' :: tail = rest := by
    rw [← hP, ← hDcons]
    exact List.takeWhile_append_dropWhile _ _
  obtain ⟨q, rfl⟩ : ∃ q, p = q + 1 := ⟨p - 1, by omega⟩
  have hq : q < P.length := by omega
  have hPmem : ∀ x ∈ P, (x != '*') = true := by
    intro x hx
    rw [← hP] at hx
    exact @List.mem_takeWhile_imp Char (fun y => y != '*') rest x hx
  have hset : (c0 :: rest).set (q + 1) c' = c0 :: (P.set q c' ++ '*' :: tail) := by
    rw [List.set_cons_succ]
    congr 1
    rw [← hPD, List.set_append, if_pos hq]
  have hgetl : (c0 :: rest)[q + 1]? = P[q]? := by
    rw [List.getElem?_cons_succ, ← hPD, List.getElem?_append, if_pos hq]
  have hbridge : P.get ⟨q, hq⟩ = P[q] := rfl
  have hcne : P.get ⟨q, hq⟩ ≠ c' := by
    intro he
    apply hmut
    rw [hgetl, List.getElem?_eq_getElem hq, ← hbridge, he]
  have hck' : checksumOk P (tail.takeWhile (· != '|')) = true := by
    rw [hDcons] at hck
    have hdrop : (('*' :: tail) : List Char).drop 1 = tail := rfl
    rwa [hdrop] at hck
  by_cases hstar : c' = '*'
  · subst hstar
    have hsplit : P.set q '*' = P.take q ++ '*' :: P.drop (q + 1) :=
      List.set_eq_take_cons_drop '*' hq
    have htake : ∀ x ∈ P.take q, (x != '*') = true :=
      fun x hx => hPmem x (List.mem_of_mem_take hx)
    have harr : P.set q '*' ++ '*' :: tail =
        P.take q ++ '*' :: (P.drop (q + 1) ++ '*' :: tail) := by
      rw [hsplit, List.append_assoc, List.cons_append]
    have hnb : ∀ x ∈ P.drop (q + 1), (x != '|') = true := by
      intro x hx
      rw [bne_iff_ne]
      exact payloadOk_no_bar P hpok x (List.mem_of_mem_drop hx)
    rw [hset, validatesB_cons, harr]
    rw [takeWhile_append_cons _ _ _ _ htake (by decide)]
    rw [dropWhile_append_cons _ _ _ _ htake (by decide)]
    have hdrop : ('*' :: (P.drop (q + 1) ++ '*' :: tail) : List Char).drop 1 =
        P.drop (q + 1) ++ '*' :: tail := rfl
    rw [hdrop]
    rw [takeWhile_append_all _ _ _ hnb]
    have hmem : '*' ∈ P.drop (q + 1) ++ ('*' :: tail).takeWhile (· != '|') := by
      refine List.mem_append_right _ ?_
      rw [List.takeWhile_cons, if_pos (by decide)]
      exact List.mem_cons_self _ _
    rw [checksumOk_of_star_mem _ _ hmem]
    simp
  · have hPset : ∀ x ∈ P.set q c', (x != '*') = true := by
      intro x hx
      rcases List.mem_or_eq_of_mem_set hx with hx | rfl
      · exact hPmem x hx
      · rw [bne_iff_ne]
        exact hstar
    rw [hset, validatesB_cons]
    rw [takeWhile_append_cons _ _ _ _ hPset (by decide)]
    rw [dropWhile_append_cons _ _ _ _ hPset (by decide)]
    have hxor : xorFold (P.set q c') =
        xorFold P ^^^ (P.get ⟨q, hq⟩).toNat ^^^ c'.toNat := xorFold_set P q c' hq
    have hne2 : xorFold (P.set q c') ≠ xorFold P := by
      rw [hxor, Nat.xor_assoc]
      intro he
      have h0 : (P.get ⟨q, hq⟩).toNat ^^^ c'.toNat = 0 := by
        have hx := congrArg (fun z => xorFold P ^^^ z) he
        simp only at hx
        rwa [← Nat.xor_assoc, Nat.xor_self, Nat.zero_xor] at hx
      exact hcne (char_toNat_inj _ _ (Nat.xor_eq_zero.mp h0))
    have hcf : checksumOk (P.set q c')
        (((('*' :: tail) : List Char).drop 1).takeWhile (· != '|')) = false := by
      have hdrop : (('*' :: tail) : List Char).drop 1 = tail := rfl
      rw [hdrop]
      exact checksumOk_of_ne_xorFold P _ _ hck' hne2
    rw [hcf]
    simp

/-- C2 witness: the concrete line `$FLT,1.5,2.5,30.0,4.0,5,6*69` validates
(checksum 0x69), and mutating payload byte 5 (the digit '1' of the latitude)
to '7' makes validation fail. -/
theorem single_payload_byte_mutation_fails_validation_witness :
    validatesB "$FLT,1.5,2.5,30.0,4.0,5,6*69".data = true ∧
      validatesB ("$FLT,1.5,2.5,30.0,4.0,5,6*69".data.set 5 '7') = false :=
  ⟨by decide, single_payload_byte_mutation_fails_validation
    "$FLT,1.5,2.5,30.0,4.0,5,6*69".data 5 '7'
    (by decide) (by decide) (by decide) (by decide)⟩

end RC
